import Mathlib

/-!
Verification of the rehype-styling transform.

The model below is a shallow embedding of the plugin's source: the hast tree
(element / text nodes), the annotation matcher (regex /^{([^}]*)}/ on a text
node's value), the tokenizer (regex /(?:[^\s"']+|"[^"]*"|'[^']*')+/g), the
token classifier, the target-element resolver, the attribute merger, and the
visitor that ties them together, including the in-place child-list mutation
(value rewrite and splice) performed during traversal.

Strings are modelled as lists of characters (`Str`); whitespace is the ASCII
whitespace recognized by `Char.isWhitespace`, which covers every whitespace
character occurring in the repository's data.
-/

namespace RehypeStyling

/-- Character-list strings: the model of JS strings. -/
abbrev Str := List Char

/-- Convert a Lean string literal to the model representation. -/
def strv (s : String) : Str := s.data

/-- The single-quote character, used by the tokenizer and the quote stripper. -/
def squote : Char := Char.ofNat 39

/-- ASCII whitespace, the model of the \s class and of String.prototype.trim. -/
def isWs (c : Char) : Bool := c.isWhitespace

/-- JS String.prototype.trim: drop whitespace from both ends. -/
def jsTrim (s : Str) : Str :=
  ((s.dropWhile isWs).reverse.dropWhile isWs).reverse

/-- The annotation matcher, regex /^{([^}]*)}/ on a text value: when the value
starts with the open brace and a close brace occurs later, return the capture
(everything before the first close brace) and the remainder after that close
brace; otherwise no match. -/
def splitAnn (v : Str) : Option (Str × Str) :=
  match v with
  | c :: rest =>
    if c = '{' ∧ '}' ∈ rest then
      some (rest.takeWhile (fun x => x ≠ '}'), (rest.dropWhile (fun x => x ≠ '}')).drop 1)
    else none
  | [] => none

example : splitAnn (strv "\x7bcolor: red;\x7dtext") =
    some (strv "color: red;", strv "text") := by decide

example : splitAnn (strv "no annotation here") = none := by decide

example : splitAnn (strv "\x7bunterminated") = none := by decide

example : splitAnn (strv "mid \x7bx\x7d text") = none := by decide

/-! ## Tokenizer

JS: `attributeString.match(/(?:[^\s"']+|"[^"]*"|'[^']*')+/g) ?? []`.
A token is a maximal concatenation of runs, each run being either a block of
non-whitespace non-quote characters, a complete double-quoted block, or a
complete single-quoted block.  The scanner starts a match attempt at each
position, advancing one character when no run can start there. -/

/-- A character that can appear in an unquoted run. -/
def isTokChar (c : Char) : Bool := !isWs c && c ≠ '"' && c ≠ squote

/-- One run of the token regex at the current position: returns the consumed
characters and the rest, or none when no alternative matches here. -/
def tokAlt (l : Str) : Option (Str × Str) :=
  match l with
  | [] => none
  | c :: rest =>
    if c = '"' then
      let inner := rest.takeWhile (fun x => x ≠ '"')
      if inner.length < rest.length then
        some ('"' :: inner ++ ['"'], (rest.dropWhile (fun x => x ≠ '"')).drop 1)
      else none
    else if c = squote then
      let inner := rest.takeWhile (fun x => x ≠ squote)
      if inner.length < rest.length then
        some (squote :: inner ++ [squote], (rest.dropWhile (fun x => x ≠ squote)).drop 1)
      else none
    else if isTokChar c then
      some ((c :: rest).takeWhile isTokChar, (c :: rest).dropWhile isTokChar)
    else none

/-- Greedy iteration of `tokAlt`: one whole token (the + of the regex).
Fuel-driven so that concrete evaluation reduces in the kernel; fuel at least
the length of the input is always sufficient since every run consumes at
least one character. -/
def tokLoopF : Nat → Str → Str → Str × Str
  | 0, l, acc => (acc, l)
  | fuel + 1, l, acc =>
    match tokAlt l with
    | none => (acc, l)
    | some (c, rest) => tokLoopF fuel rest (acc ++ c)

/-- The scanner: tries a token at each position, advancing one character when
none starts here. -/
def jsTokenizeAuxF : Nat → Str → List Str
  | 0, _ => []
  | fuel + 1, l =>
    match l with
    | [] => []
    | _ :: rest =>
      match tokAlt l with
      | none => jsTokenizeAuxF fuel rest
      | some _ =>
        let r := tokLoopF l.length l []
        r.1 :: jsTokenizeAuxF fuel r.2

/-- The tokenizer of the annotation body. -/
def jsTokenize (s : Str) : List Str := jsTokenizeAuxF s.length s

example : jsTokenize (strv "color: red; font-weight: bold;") =
    [strv "color:", strv "red;", strv "font-weight:", strv "bold;"] := by decide

example : jsTokenize (strv ".card #main data-category=\"tech\"") =
    [strv ".card", strv "#main", strv "data-category=\"tech\""] := by decide

example : jsTokenize (strv "a\"bc") = [strv "a", strv "bc"] := by decide

example : jsTokenize (strv "") = [] := by decide

/-! ## Token classifier (`parseAttributes`) -/

/-- Split a string on every occurrence of a character (JS String.split with a
one-character separator). -/
def splitChar (c : Char) : Str → List Str
  | [] => [[]]
  | x :: xs =>
    if x = c then [] :: splitChar c xs
    else
      match splitChar c xs with
      | [] => [[x]]
      | p :: ps => (x :: p) :: ps

/-- Join strings with a one-character separator (JS Array.join). -/
def joinChar (c : Char) : List Str → Str
  | [] => []
  | [s] => s
  | s :: ss => s ++ c :: joinChar c ss

/-- JS `value.replace(/^["']|["']$/g, '')`: remove one leading quote character
if present, and one trailing quote character if still present; the two removals
are independent (no matching pair required). -/
def stripQuotes (v : Str) : Str :=
  let v1 := match v with
    | c :: rest => if c = '"' ∨ c = squote then rest else v
    | [] => v
  match v1.getLast? with
  | some c => if c = '"' ∨ c = squote then v1.dropLast else v1
  | none => v1

example : stripQuotes (strv "\"tech\"") = strv "tech" := by decide
example : stripQuotes (strv "\"tech") = strv "tech" := by decide
example : stripQuotes (strv "'tech\"") = strv "tech" := by decide
example : stripQuotes (strv "\"") = strv "" := by decide
example : stripQuotes (strv "plain") = strv "plain" := by decide

/-- The accumulator of the classifier loop: the three result fields of the
source's `ParsedAttributes` plus the local `cssProperties` list. -/
structure ParseState where
  classes : List Str
  id : Option Str
  attributes : List (Str × Str)
  css : List Str
deriving DecidableEq

/-- The initial classifier state. -/
def initState : ParseState := ⟨[], none, [], []⟩

/-- Record assignment (`record[key] = value`): replace the value in place when
the key is present, append the entry otherwise. -/
def setEntry : List (Str × Str) → Str → Str → List (Str × Str)
  | [], k, v => [(k, v)]
  | (k', v') :: ps, k, v =>
    if k' = k then (k, v) :: ps else (k', v') :: setEntry ps k v

/-- Record lookup. -/
def getEntry : List (Str × Str) → Str → Option Str
  | [], _ => none
  | (k', v') :: ps, k => if k' = k then some v' else getEntry ps k

/-- A token at which the CSS-declaration lookahead stops: starts with a dot,
starts with a hash, is an attribute token (= without :), or contains a colon. -/
def stopToken (t : Str) : Bool :=
  t.head? = some '.' || t.head? = some '#' ||
    (t.elem '=' && !t.elem ':') || t.elem ':'

/-- The lookahead of the declaration case: keep absorbing tokens (space-joined)
while the next token is not a stop token; return the declaration text and the
unconsumed rest. -/
def declAbsorb (acc : Str) : List Str → Str × List Str
  | [] => (acc, [])
  | t :: ts => if stopToken t then (acc, t :: ts) else declAbsorb (acc ++ ' ' :: t) ts

/-- Finish a declaration: trim it, then append a semicolon exactly when it does
not already end with one. -/
def finishDecl (d : Str) : Str :=
  let d := jsTrim d
  if d.getLast? = some ';' then d else d ++ [';']

/-- One step of the classifier switch on the current token; returns the new
state and the tokens still to process. -/
def classifyStep (t : Str) (st : ParseState) (ts : List Str) : ParseState × List Str :=
  if t.head? = some '.' then
    ({ st with classes := st.classes ++ [t.drop 1] }, ts)
  else if t.head? = some '#' then
    ({ st with id := some (t.drop 1) }, ts)
  else if t.elem '=' && !t.elem ':' then
    let parts := splitChar '=' t
    let value := stripQuotes (joinChar '=' parts.tail)
    ({ st with attributes := setEntry st.attributes (parts.headD []) value }, ts)
  else if t.elem ':' then
    let r := declAbsorb t ts
    ({ st with css := st.css ++ [finishDecl r.1] }, r.2)
  else (st, ts)

/-- The classifier loop, fuel-driven; fuel at least the token count is always
sufficient since every step consumes at least one token. -/
def classifyAux : Nat → List Str → ParseState → ParseState
  | _, [], st => st
  | 0, _ :: _, st => st
  | fuel + 1, t :: ts, st =>
    let r := classifyStep t st ts
    classifyAux fuel r.2 r.1

/-- The whole classifier pass over a token list. -/
def classifyTokens (ts : List Str) (st : ParseState) : ParseState :=
  classifyAux ts.length ts st

/-- The structured result of the annotation parser. -/
structure ParsedAttributes where
  classes : List Str
  id : Option Str
  attributes : List (Str × Str)
deriving DecidableEq

/-- `parseAttributes`: tokenize the (already trimmed) annotation body, classify
the tokens, then, when CSS declarations were collected, store them (joined by
single spaces and trimmed) under the style key, overwriting any explicit
style= token. -/
def parseAttributes (s : Str) : ParsedAttributes :=
  let st := classifyTokens (jsTokenize s) initState
  { classes := st.classes
    id := st.id
    attributes :=
      if st.css ≠ [] then setEntry st.attributes (strv "style") (jsTrim (joinChar ' ' st.css))
      else st.attributes }

example : (parseAttributes (strv "color: red; font-weight: bold;")).attributes =
    [(strv "style", strv "color: red; font-weight: bold;")] := by decide

example :
    parseAttributes (strv ".card .featured #main-article color: blue; padding: 20px; data-category=\"tech\"") =
    { classes := [strv "card", strv "featured"]
      id := some (strv "main-article")
      attributes := [(strv "data-category", strv "tech"),
                     (strv "style", strv "color: blue; padding: 20px;")] } := by decide

example : (parseAttributes (strv "style=red")).attributes = [(strv "style", strv "red")] := by
  decide

/-! ## Tree model and attribute merger -/

/-- A property value of the hast attribute bag: a string or an array of
strings (the two shapes the source inspects, via Array.isArray and
typeof === string on className). -/
inductive PropVal where
  | str (s : Str)
  | strList (l : List Str)
deriving DecidableEq

/-- The attribute bag of an element: an insertion-ordered string-keyed record. -/
abbrev Props := List (Str × PropVal)

/-- Record lookup in an attribute bag. -/
def getProp : Props → Str → Option PropVal
  | [], _ => none
  | (k', v') :: ps, k => if k' = k then some v' else getProp ps k

/-- Record assignment in an attribute bag: replace in place, else append. -/
def setProp : Props → Str → PropVal → Props
  | [], k, v => [(k, v)]
  | (k', v') :: ps, k, v =>
    if k' = k then (k, v) :: ps else (k', v') :: setProp ps k v

/-- A hast node: an element (tag, attribute bag, ordered children) or a text
node (string value). -/
inductive HNode where
  | element (tagName : String) (properties : Props) (children : List HNode)
  | text (value : Str)

/-- Whether a node is an element (`node.type === 'element'`). -/
def isElementNode : HNode → Bool
  | .element _ _ _ => true
  | .text _ => false

/-- Whether an optional node is present and an element. -/
def optIsElem : Option HNode → Bool
  | some n => isElementNode n
  | none => false

/-- A reference to the element that receives the parsed attributes: a child of
the visited parent, or the parent itself. -/
inductive TargetLoc where
  | childAt (i : Nat)
  | parentT
deriving DecidableEq

/-- `getTargetElement`, transcribed from the source: given the parent (its
elementhood), its current child list (after the possible splice) and the
original index of the visited text node, try: previous sibling when it is an
element; else the first child when it is an element and the list has exactly
one entry; else the parent when it is an element; else none. -/
def getTargetElement (parentIsElement : Bool) (children : List HNode) (index : Nat) :
    Option TargetLoc :=
  if index ≠ 0 ∧ 0 < children.length ∧ optIsElem (children.get? (index - 1)) then
    some (.childAt (index - 1))
  else if optIsElem (children.get? 0) ∧ children.length = 1 then
    some (.childAt 0)
  else if parentIsElement then
    some .parentT
  else none

/-- Normalization of an existing class value, from `applyAttributes`:
an array is taken as is, a string is split on the space character with empty
pieces dropped, anything absent is the empty list. -/
def normalizeClassVal : Option PropVal → List Str
  | some (.strList l) => l
  | some (.str s) => (splitChar ' ' s).filter (fun p => p ≠ [])
  | none => []

/-- JS `[...new Set(list)]`: deduplicate keeping the first occurrence of each
element, preserving insertion order. -/
def jsSetDedup (l : List Str) : List Str :=
  l.foldl (fun acc x => if x ∈ acc then acc else acc ++ [x]) []

/-- The existing style value as the merge reads it:
`(element.properties.style as string) || ''`.  The cast assumes the stored
style is a string; an array-valued style is outside the behaviour the source
supports (the claims' hypotheses exclude it) and is mapped to the empty
string to keep the function total. -/
def styleStr (ps : Props) : Str :=
  match getProp ps (strv "style") with
  | some (.str s) => s
  | _ => []

/-- Whether the style property of a bag is absent or a string (the shapes for
which the source's string cast is sound). -/
def styleOkB (ps : Props) : Bool :=
  match getProp ps (strv "style") with
  | some (.strList _) => false
  | _ => true

/-- One entry of the attribute loop of `applyAttributes`: the style key merges
with the existing style (separator: "; " when the existing value is non-empty
and does not end in a semicolon, one space when it is non-empty and does end
in one, nothing when it is empty); every other key overwrites. -/
def applyOneAttr (ps : Props) (kv : Str × Str) : Props :=
  if kv.1 = strv "style" then
    let ex := styleStr ps
    let sep :=
      if ex ≠ [] ∧ ¬ ex.getLast? = some ';' then strv "; "
      else if ex ≠ [] then strv " "
      else []
    setProp ps (strv "style") (.str (ex ++ sep ++ kv.2))
  else setProp ps kv.1 (.str kv.2)

/-- The class merge of `applyAttributes`: when classes were parsed, store the
deduplicated union of the normalized existing classes and the parsed ones,
joined by single spaces; otherwise leave the bag alone. -/
def applyClasses (pa : ParsedAttributes) (ps : Props) : Props :=
  if pa.classes ≠ [] then
    setProp ps (strv "className")
      (.str (joinChar ' '
        (jsSetDedup (normalizeClassVal (getProp ps (strv "className")) ++ pa.classes))))
  else ps

/-- The id write of `applyAttributes`: a parsed non-empty id overwrites
(`if (attributes.id)` — the empty string is falsy and is skipped). -/
def applyId (pa : ParsedAttributes) (ps : Props) : Props :=
  match pa.id with
  | some i => if i ≠ [] then setProp ps (strv "id") (.str i) else ps
  | none => ps

/-- `applyAttributes`, transcribed from the source: merge classes (when any
were parsed), overwrite the id (when a non-empty one was parsed), then apply
the parsed attribute record entry by entry via `applyOneAttr`. -/
def applyAttributes (pa : ParsedAttributes) (ps : Props) : Props :=
  pa.attributes.foldl applyOneAttr (applyId pa (applyClasses pa ps))

example :
    applyAttributes { classes := [strv "new", strv "x"], id := none, attributes := [] }
      [(strv "className", .str (strv "existing"))] =
    [(strv "className", .str (strv "existing new x"))] := by decide

example :
    applyAttributes ⟨[], none, [(strv "style", strv "font-weight: bold;")]⟩
      [(strv "style", .str (strv "color:red"))] =
    [(strv "style", .str (strv "color:red; font-weight: bold;"))] := by decide

/-! ## The visitor (`onVisit`) and the traversal -/

/-- Apply a function to the attribute bag of an element node. -/
def updateElemProps (f : Props → Props) : HNode → HNode
  | .element t ps cs => .element t (f ps) cs
  | n => n

/-- Replace the node at an index by a function of it (identity out of range). -/
def modifyAt (l : List HNode) (i : Nat) (f : HNode → HNode) : List HNode :=
  match l.get? i with
  | some n => l.set i (f n)
  | none => l

/-- Apply an attribute-bag update at a resolved target: at the parent's own
bag, at a child element's bag, or nowhere. -/
def applyAtLoc (props : Props) (children : List HNode) (loc : Option TargetLoc)
    (f : Props → Props) : Props × List HNode :=
  match loc with
  | none => (props, children)
  | some .parentT => (f props, children)
  | some (.childAt i) => (props, modifyAt children i (updateElemProps f))

/-- The text rewrite and splice of `onVisit`: the node's value becomes the
stripped-and-trimmed remainder; when that is empty the node is spliced out of
the child list, otherwise it stays in place with the new value. -/
def pruneOrSet (children : List HNode) (index : Nat) (v : Str) : List HNode :=
  if v = [] then children.eraseIdx index else children.set index (.text v)

/-- `onVisit`, transcribed from the source: on a text child whose value
matches the annotation regex, trim the captured body; strip the annotation
from the value and splice the node when the value became empty; resolve the
target on the mutated child list with the original index; then either force an
empty style (empty body) or merge the parsed attributes (non-empty body) into
the target.  Anything else is a no-op. -/
def onVisit (parentIsElement : Bool) (props : Props) (children : List HNode)
    (index : Nat) : Props × List HNode :=
  match children.get? index with
  | some (.text value) =>
    match splitAnn value with
    | none => (props, children)
    | some (body, after) =>
      let attributeString := jsTrim body
      let newValue := jsTrim after
      let children1 := pruneOrSet children index newValue
      if attributeString = [] then
        applyAtLoc props children1 (getTargetElement parentIsElement children1 index)
          (fun ps => setProp ps (strv "style") (.str []))
      else
        applyAtLoc props children1 (getTargetElement parentIsElement children1 index)
          (applyAttributes (parseAttributes attributeString))
  | _ => (props, children)

mutual
/-- Node count of a node, used to bound the traversal fuel. -/
def sizeNode : HNode → Nat
  | .text _ => 1
  | .element _ _ cs => 1 + sizeForest cs
/-- Node count of a forest, used to bound the traversal fuel. -/
def sizeForest : List HNode → Nat
  | [] => 0
  | n :: ns => sizeNode n + sizeForest ns
end

/-- The traversal of unist-util-visit with test "text", fuel-driven: walk the
live child list by index, calling `onVisit` on text children (whose mutations
the rest of the walk observes) and recursing into element children; after a
visit the walk continues at the next index of the mutated list. -/
def visitLoop : Nat → Bool → Props → List HNode → Nat → Props × List HNode
  | 0, _, props, children, _ => (props, children)
  | fuel + 1, b, props, children, i =>
    match children.get? i with
    | none => (props, children)
    | some (.text _) =>
      let r := onVisit b props children i
      visitLoop fuel b r.1 r.2 (i + 1)
    | some (.element t ps cs) =>
      let r := visitLoop fuel true ps cs 0
      visitLoop fuel b props (children.set i (.element t r.1 r.2)) (i + 1)

/-- The plugin's tree transform applied to the children of the (non-element)
root.  The fuel strictly exceeds the number of traversal steps (one per
visited index plus one per descent, and the tree only ever shrinks), so the
cutoff is never reached. -/
def transform (root : List HNode) : List HNode :=
  (visitLoop (2 * sizeForest root + 2) false [] root 0).2

example :
    transform [.element "p" [] [.text (strv "\x7bcolor: red; font-weight: bold;\x7dThis is styled text")]] =
    [.element "p" [(strv "style", .str (strv "color: red; font-weight: bold;"))]
      [.text (strv "This is styled text")]] := by rfl

example :
    transform [.element "div" [] [.text (strv "\x7bdisplay: none;\x7d")]] =
    [.element "div" [(strv "style", .str (strv "display: none;"))] []] := by rfl

example :
    transform [.element "div" []
      [.element "em" [] [], .text (strv "\x7bfont-style: italic;\x7d and "),
       .element "strong" [] [], .text (strv "\x7bfont-weight: bold;\x7d together")]] =
    [.element "div" []
      [.element "em" [(strv "style", .str (strv "font-style: italic;"))] [],
       .text (strv "and"),
       .element "strong" [(strv "style", .str (strv "font-weight: bold;"))] [],
       .text (strv "together")]] := by rfl

example :
    transform [.element "p" [] [.text (strv "\x7b\x7dSome text here")]] =
    [.element "p" [(strv "style", .str (strv ""))] [.text (strv "Some text here")]] := by rfl

/-! ## Claim-side definitions and predicates -/

/-- Target resolution exactly as claim C1 words it: (1) original index
positive and the child at position index-1 an element, (2) else first entry an
element and exactly one entry in total, (3) else the parent when it is an
element, (4) else none. -/
def getTargetSpec (parentIsElement : Bool) (children : List HNode) (index : Nat) :
    Option TargetLoc :=
  if 0 < index ∧ optIsElem (children.get? (index - 1)) then some (.childAt (index - 1))
  else if optIsElem (children.get? 0) ∧ children.length = 1 then some (.childAt 0)
  else if parentIsElement then some .parentT
  else none

/-- The claim's condition on a text value: it begins at offset 0 with the open
delimiter and a close delimiter follows before the end of the string. -/
def hasAnnStartB (v : Str) : Bool :=
  match v with
  | c :: rest => c = '{' && rest.elem '}'
  | [] => false

mutual
/-- No text value anywhere in the node has an annotation start. -/
def nodeNoAnnB : HNode → Bool
  | .text v => !hasAnnStartB v
  | .element _ _ cs => forestNoAnnB cs
/-- No text value anywhere in the forest has an annotation start. -/
def forestNoAnnB : List HNode → Bool
  | [] => true
  | n :: ns => nodeNoAnnB n && forestNoAnnB ns
end

/-- Split a string at every character satisfying a predicate. -/
def splitPred (p : Char → Bool) : Str → List Str
  | [] => [[]]
  | x :: xs =>
    if p x then [] :: splitPred p xs
    else
      match splitPred p xs with
      | [] => [[x]]
      | q :: qs => (x :: q) :: qs

/-- Normalization of an existing class value as claim C4 words it: absent
becomes the empty list, an array is taken as is, a string is split on
whitespace with empty pieces dropped. -/
def specNormalizeClass : Option PropVal → List Str
  | some (.strList l) => l
  | some (.str s) => (splitPred isWs s).filter (fun q => q ≠ [])
  | none => []

/-- The merged class string as claim C4 words it. -/
def specMergeClass (ps : Props) (pa : ParsedAttributes) : Str :=
  joinChar ' '
    (jsSetDedup (specNormalizeClass (getProp ps (strv "className")) ++ pa.classes))

/-- Quote stripping as claim C6 words it: one layer removed only when a
matching leading/trailing pair of identical quote characters is present. -/
def stripQuotesSpec (v : Str) : Str :=
  match v.head?, v.getLast? with
  | some a, some b =>
    if 2 ≤ v.length ∧ a = b ∧ (a = '"' ∨ a = squote) then (v.drop 1).dropLast else v
  | _, _ => v

/-- The invariant of the collected declarations: non-empty and
semicolon-terminated. -/
def cssOk (l : List Str) : Prop := ∀ d ∈ l, d ≠ [] ∧ d.getLast? = some ';'

/-- Equality of nodes up to the attribute bag: same variant, same text value,
same tag and same children. -/
def sameShape : HNode → HNode → Prop
  | .text v, .text w => v = w
  | .element t _ cs, .element t' _ cs' => t = t' ∧ cs = cs'
  | _, _ => False

/-- `sameShape` lifted to optional nodes. -/
def sameShapeOpt : Option HNode → Option HNode → Prop
  | none, none => True
  | some a, some b => sameShape a b
  | _, _ => False

/-- The claim's shape of a style value: a sequence of non-empty
semicolon-terminated declarations joined by single spaces (the empty sequence
giving the empty string), with no leading whitespace; no trailing whitespace
can occur since a non-empty value ends in a semicolon. -/
def StyleShape (s : Str) : Prop :=
  ∃ ds : List Str, cssOk ds ∧ s = joinChar ' ' ds ∧
    (∀ c, s.head? = some c → isWs c = false)

/-! ## Basic helper lemmas -/

theorem getq_lt {α : Type} {l : List α} {i : Nat} {a : α} (h : l.get? i = some a) :
    i < l.length := by
  induction l generalizing i with
  | nil => simp [List.get?] at h
  | cons x xs ih =>
    cases i with
    | zero => simp
    | succ j => simpa using Nat.succ_lt_succ (ih (by simpa [List.get?] using h))

theorem getq_set_self {α : Type} {l : List α} {i : Nat} {b : α} (a : α)
    (h : l.get? i = some b) : (l.set i a).get? i = some a := by
  induction l generalizing i with
  | nil => simp [List.get?] at h
  | cons x xs ih =>
    cases i with
    | zero => rfl
    | succ j => simpa [List.set, List.get?] using ih (by simpa [List.get?] using h)

theorem getq_set_ne {α : Type} {l : List α} {i j : Nat} (a : α) (h : i ≠ j) :
    (l.set i a).get? j = l.get? j := by
  induction l generalizing i j with
  | nil => simp [List.set]
  | cons x xs ih =>
    cases i with
    | zero =>
      cases j with
      | zero => exact absurd rfl h
      | succ k => rfl
    | succ i' =>
      cases j with
      | zero => rfl
      | succ k => simpa [List.set, List.get?] using ih (fun hc => h (by rw [hc]))

theorem set_getq_same {α : Type} {l : List α} {i : Nat} {a : α}
    (h : l.get? i = some a) : l.set i a = l := by
  induction l generalizing i with
  | nil => rfl
  | cons x xs ih =>
    cases i with
    | zero => simp [List.get?] at h; simp [List.set, h]
    | succ j => simpa [List.set] using ih (by simpa [List.get?] using h)

theorem length_eraseIdx_add_one {α : Type} {l : List α} {i : Nat} (h : i < l.length) :
    (l.eraseIdx i).length + 1 = l.length := by
  induction l generalizing i with
  | nil => simp at h
  | cons x xs ih =>
    cases i with
    | zero => simp [List.eraseIdx]
    | succ j => simpa [List.eraseIdx] using ih (by simpa using h)

theorem getLast?_append_cons {α : Type} (l r : List α) (c : α) :
    (l ++ c :: r).getLast? = (c :: r).getLast? := by
  induction l with
  | nil => rfl
  | cons x xs ih =>
    cases hx : xs ++ c :: r with
    | nil => exact absurd hx (by simp)
    | cons y ys => rw [List.cons_append, hx, List.getLast?_cons_cons, ← hx, ih]

theorem head?_append_left {α : Type} {l : List α} (r : List α) (h : l ≠ []) :
    (l ++ r).head? = l.head? := by
  cases l with
  | nil => exact absurd rfl h
  | cons x xs => rfl

theorem getLast?_mem {α : Type} {l : List α} {a : α} (h : l.getLast? = some a) :
    a ∈ l := by
  induction l with
  | nil => simp [List.getLast?] at h
  | cons x xs ih =>
    cases xs with
    | nil => simp [List.getLast?] at h; simp [h]
    | cons y ys =>
      rw [List.getLast?_cons_cons] at h
      exact List.mem_cons_of_mem _ (ih h)

theorem dropWhile_head_false {α : Type} {p : α → Bool} {l : List α} {c : α}
    (h : (l.dropWhile p).head? = some c) : p c = false := by
  induction l with
  | nil => simp [List.dropWhile] at h
  | cons x xs ih =>
    rw [List.dropWhile_cons] at h
    by_cases hp : p x
    · exact ih (by simpa [hp] using h)
    · simp [hp] at h
      subst h
      exact Bool.of_not_eq_true hp

theorem dropWhile_all_of_nil {α : Type} {p : α → Bool} {l : List α}
    (h : l.dropWhile p = []) : ∀ a ∈ l, p a = true := by
  induction l with
  | nil => intro a ha; simp at ha
  | cons x xs ih =>
    rw [List.dropWhile_cons] at h
    by_cases hp : p x
    · intro a ha
      rcases List.mem_cons.1 ha with rfl | ha'
      · exact hp
      · exact ih (by simpa [hp] using h) a ha'
    · simp [hp] at h

theorem nodup_middle_not_mem {α : Type} {xs ys : List α} {y : α}
    (h : (xs ++ y :: ys).Nodup) : y ∉ xs ∧ y ∉ ys := by
  induction xs with
  | nil =>
    rcases List.nodup_cons.1 h with ⟨hy, _⟩
    exact ⟨by simp, hy⟩
  | cons x xs ih =>
    rcases List.nodup_cons.1 h with ⟨hx, hrest⟩
    rcases ih hrest with ⟨h1, h2⟩
    refine ⟨?_, h2⟩
    intro hy
    rcases List.mem_cons.1 hy with rfl | hy'
    · exact hx (by simp)
    · exact h1 hy'

/-! ## Trim lemmas -/

theorem jsTrim_of_getLast_semi {s : Str} (h : s.getLast? = some ';') :
    jsTrim s = s.dropWhile isWs := by
  unfold jsTrim
  have hne : s.dropWhile isWs ≠ [] := by
    intro hnil
    have := dropWhile_all_of_nil hnil ';' (getLast?_mem h)
    simp [isWs, Char.isWhitespace] at this
  have hlast : (s.dropWhile isWs).getLast? = some ';' := by
    have hsplit : s.takeWhile isWs ++ s.dropWhile isWs = s := List.takeWhile_append_dropWhile ..
    cases hd : s.dropWhile isWs with
    | nil => exact absurd hd hne
    | cons c cs =>
      have : s = s.takeWhile isWs ++ c :: cs := by rw [← hd, hsplit]
      rw [this, getLast?_append_cons] at h
      exact h
  have hrevhead : (s.dropWhile isWs).reverse.head? = some ';' := by
    rw [List.head?_reverse, hlast]
  cases hrev : (s.dropWhile isWs).reverse with
  | nil => simp [hrev] at hrevhead
  | cons c cs =>
    rw [hrev] at hrevhead
    have hc : c = ';' := by simpa using hrevhead
    have : ¬ isWs c = true := by simp [hc, isWs, Char.isWhitespace]
    rw [List.dropWhile_cons_of_neg this, ← hrev, List.reverse_reverse]

theorem jsTrim_last_semi {s : Str} (h : s.getLast? = some ';') :
    (jsTrim s).getLast? = some ';' := by
  rw [jsTrim_of_getLast_semi h]
  have hne : s.dropWhile isWs ≠ [] := by
    intro hnil
    have := dropWhile_all_of_nil hnil ';' (getLast?_mem h)
    simp [isWs, Char.isWhitespace] at this
  have hsplit : s.takeWhile isWs ++ s.dropWhile isWs = s := List.takeWhile_append_dropWhile ..
  cases hd : s.dropWhile isWs with
  | nil => exact absurd hd hne
  | cons c cs =>
    have : s = s.takeWhile isWs ++ c :: cs := by rw [← hd, hsplit]
    rw [this, getLast?_append_cons] at h
    exact h

theorem jsTrim_head_not_ws {s : Str} {c : Char} (h : (jsTrim s).head? = some c) :
    isWs c = false := by
  unfold jsTrim at h
  set a := s.dropWhile isWs with ha
  have hsplit : a.reverse.takeWhile isWs ++ a.reverse.dropWhile isWs = a.reverse :=
    List.takeWhile_append_dropWhile ..
  set b := a.reverse.dropWhile isWs with hb
  have hbne : b ≠ [] := by
    intro hnil
    rw [hnil] at h
    simp at h
  have hrb : b.reverse ≠ [] := by
    intro hnil
    exact hbne (by simpa using congrArg List.reverse hnil)
  have hab : a = b.reverse ++ (a.reverse.takeWhile isWs).reverse := by
    have := congrArg List.reverse hsplit
    simpa [List.reverse_append] using this.symm
  have hha : a.head? = some c := by
    rw [hab, head?_append_left _ hrb]
    exact h
  rw [ha] at hha
  exact dropWhile_head_false hha

/-! ## Record lemmas -/

theorem getProp_setProp_self (ps : Props) (k : Str) (v : PropVal) :
    getProp (setProp ps k v) k = some v := by
  induction ps with
  | nil => simp [setProp, getProp]
  | cons kv ps ih =>
    by_cases h : kv.1 = k
    · simp [setProp, getProp, h]
    · simp [setProp, getProp, h, ih]

theorem getProp_setProp_ne (ps : Props) {k k' : Str} (v : PropVal) (h : k' ≠ k) :
    getProp (setProp ps k v) k' = getProp ps k' := by
  induction ps with
  | nil => simp [setProp, getProp, Ne.symm h]
  | cons kv ps ih =>
    by_cases hk : kv.1 = k
    · simp [setProp, getProp, hk, Ne.symm h]
    · by_cases hk' : kv.1 = k'
      · simp [setProp, getProp, hk, hk', h]
      · simp [setProp, getProp, hk, hk', ih]

/-- `applyOneAttr` never touches a key different from the entry's own key. -/
theorem applyOneAttr_keep {k : Str} {kv : Str × Str} (ps : Props) (h : kv.1 ≠ k) :
    getProp (applyOneAttr ps kv) k = getProp ps k := by
  unfold applyOneAttr
  by_cases hs : kv.1 = strv "style"
  · simp only [hs, if_pos rfl]
    exact getProp_setProp_ne ps _ (fun hc => h (by rw [hc, hs]))
  · rw [if_neg hs]
    exact getProp_setProp_ne ps _ (fun hc => h hc.symm)

theorem foldl_applyOneAttr_keep {k : Str} (l : List (Str × Str)) (ps : Props)
    (h : ∀ kv ∈ l, kv.1 ≠ k) :
    getProp (l.foldl applyOneAttr ps) k = getProp ps k := by
  induction l generalizing ps with
  | nil => rfl
  | cons kv l ih =>
    rw [List.foldl_cons, ih _ (fun x hx => h x (List.mem_cons_of_mem _ hx)),
      applyOneAttr_keep ps (h kv (List.mem_cons_self _ _))]

theorem styleStr_foldl_keep (l : List (Str × Str)) (ps : Props)
    (h : ∀ kv ∈ l, kv.1 ≠ strv "style") :
    styleStr (l.foldl applyOneAttr ps) = styleStr ps := by
  unfold styleStr
  rw [foldl_applyOneAttr_keep l ps h]

theorem styleStr_eq_of_getProp {ps : Props} {x : Str}
    (h : getProp ps (strv "style") = some (.str x)) : styleStr ps = x := by
  unfold styleStr
  simp only [h]

/-- The style entry of `applyOneAttr`: the merge equation with the source's
separator choice. -/
theorem applyOneAttr_style (ps : Props) (v : Str) :
    applyOneAttr ps (strv "style", v) =
      setProp ps (strv "style")
        (.str (styleStr ps ++
          (if styleStr ps ≠ [] ∧ ¬ (styleStr ps).getLast? = some ';' then strv "; "
           else if styleStr ps ≠ [] then strv " " else []) ++ v)) := by
  rfl

theorem getEntry_setEntry_self (r : List (Str × Str)) (k v : Str) :
    getEntry (setEntry r k v) k = some v := by
  induction r with
  | nil => simp [setEntry, getEntry]
  | cons kv r ih =>
    by_cases h : kv.1 = k
    · simp [setEntry, getEntry, h]
    · simp [setEntry, getEntry, h, ih]

theorem mem_setEntry_self (r : List (Str × Str)) (k v : Str) :
    (k, v) ∈ setEntry r k v := by
  induction r with
  | nil => simp [setEntry]
  | cons kv r ih =>
    by_cases h : kv.1 = k
    · simp [setEntry, h]
    · simp only [setEntry, if_neg h]
      exact List.mem_cons_of_mem _ ih

theorem keys_setEntry_mem {k v : Str} :
    ∀ (r : List (Str × Str)) {x : Str},
      x ∈ (setEntry r k v).map Prod.fst → x ∈ r.map Prod.fst ∨ x = k
  | [], x, h => by
    simp [setEntry] at h
    exact Or.inr h
  | (k', v') :: r, x, h => by
    by_cases hk : k' = k
    · rw [setEntry, if_pos hk, List.map_cons, List.mem_cons] at h
      rcases h with rfl | h
      · exact Or.inr rfl
      · exact Or.inl (List.mem_cons_of_mem _ h)
    · rw [setEntry, if_neg hk, List.map_cons, List.mem_cons] at h
      rcases h with rfl | h
      · exact Or.inl (List.mem_cons_self _ _)
      · rcases keys_setEntry_mem r h with h' | rfl
        · exact Or.inl (List.mem_cons_of_mem _ h')
        · exact Or.inr rfl

theorem keys_setEntry_nodup {r : List (Str × Str)} (k v : Str)
    (h : (r.map Prod.fst).Nodup) : ((setEntry r k v).map Prod.fst).Nodup := by
  induction r with
  | nil => simp [setEntry]
  | cons kv r ih =>
    rw [List.map_cons, List.nodup_cons] at h
    by_cases hk : kv.1 = k
    · simp only [setEntry, if_pos hk, List.map_cons, List.nodup_cons]
      exact ⟨by rw [← hk]; exact h.1, h.2⟩
    · simp only [setEntry, if_neg hk, List.map_cons, List.nodup_cons]
      refine ⟨?_, ih h.2⟩
      intro hmem
      rcases keys_setEntry_mem _ hmem with h' | rfl
      · exact h.1 h'
      · exact hk rfl

/-! ## joinChar and declAbsorb lemmas -/

theorem joinChar_cons_cons (c : Char) (a b : Str) (l : List Str) :
    joinChar c (a :: b :: l) = a ++ c :: joinChar c (b :: l) := by
  rfl

theorem joinChar_glue (c : Char) (a t : Str) (l : List Str) :
    joinChar c ((a ++ c :: t) :: l) = joinChar c (a :: t :: l) := by
  cases l with
  | nil => rfl
  | cons x xs => simp [joinChar_cons_cons, List.append_assoc]

/-- The declaration lookahead absorbs exactly the longest run of non-stop
tokens, space-joined onto the accumulator, and resumes at the first stop
token. -/
theorem declAbsorb_eq (ts : List Str) (acc : Str) :
    declAbsorb acc ts =
      (joinChar ' ' (acc :: ts.takeWhile (fun x => !stopToken x)),
       ts.dropWhile (fun x => !stopToken x)) := by
  induction ts generalizing acc with
  | nil => rfl
  | cons t ts ih =>
    by_cases h : stopToken t
    · rw [declAbsorb, if_pos h, List.takeWhile_cons_of_neg (by simp [h]),
        List.dropWhile_cons_of_neg (by simp [h])]
      rfl
    · rw [declAbsorb, if_neg h, ih, List.takeWhile_cons_of_pos (by simp [h]),
        List.dropWhile_cons_of_pos (by simp [h]), joinChar_glue]

theorem declAbsorb_length (ts : List Str) (acc : Str) :
    (declAbsorb acc ts).2.length ≤ ts.length := by
  rw [declAbsorb_eq]
  induction ts with
  | nil => simp
  | cons t ts ih =>
    by_cases h : stopToken t
    · rw [List.dropWhile_cons_of_neg (by simp [h])]
    · rw [List.dropWhile_cons_of_pos (by simp [h])]
      exact Nat.le_succ_of_le ih

/-! ## Classifier lemmas -/

theorem classifyStep_length (t : Str) (st : ParseState) (ts : List Str) :
    (classifyStep t st ts).2.length ≤ ts.length := by
  unfold classifyStep
  split_ifs with h1 h2 h3 h4
  · exact Nat.le_refl _
  · exact Nat.le_refl _
  · exact Nat.le_refl _
  · exact declAbsorb_length ts t
  · exact Nat.le_refl _

theorem classifyAux_fuel (f : Nat) : ∀ (ts : List Str) (st : ParseState),
    ts.length ≤ f → classifyAux f ts st = classifyAux ts.length ts st := by
  induction f using Nat.strong_induction_on with
  | _ f ih =>
    intro ts st hle
    cases ts with
    | nil => cases f <;> rfl
    | cons t ts =>
      cases f with
      | zero => simp at hle
      | succ f' =>
        have hle' : ts.length ≤ f' := Nat.le_of_succ_le_succ (by simpa using hle)
        have hlen : (classifyStep t st ts).2.length ≤ ts.length := classifyStep_length ..
        rw [classifyAux]
        conv_rhs => rw [show (t :: ts).length = ts.length + 1 from rfl, classifyAux]
        rw [ih f' (Nat.lt_succ_self _) _ _ (Nat.le_trans hlen hle'),
          ih ts.length (Nat.lt_succ_of_le hle') _ _ hlen]

/-- One step of `classifyTokens`: run the switch on the head token and
continue on the tokens it left unconsumed. -/
theorem classifyTokens_cons (t : Str) (ts : List Str) (st : ParseState) :
    classifyTokens (t :: ts) st =
      classifyTokens (classifyStep t st ts).2 (classifyStep t st ts).1 := by
  unfold classifyTokens
  rw [show (t :: ts).length = ts.length + 1 from rfl, classifyAux]
  exact classifyAux_fuel ts.length _ _ (classifyStep_length ..)

theorem finishDecl_ok (d : Str) :
    finishDecl d ≠ [] ∧ (finishDecl d).getLast? = some ';' := by
  unfold finishDecl
  by_cases h : (jsTrim d).getLast? = some ';'
  · rw [if_pos h]
    exact ⟨fun hnil => by simp [hnil] at h, h⟩
  · rw [if_neg h]
    exact ⟨by simp, List.getLast?_concat _⟩

theorem classifyStep_css (t : Str) (st : ParseState) (ts : List Str)
    (h : cssOk st.css) : cssOk (classifyStep t st ts).1.css := by
  unfold classifyStep
  split_ifs with h1 h2 h3 h4
  · exact h
  · exact h
  · exact h
  · intro d hd
    rcases List.mem_append.1 hd with hd' | hd'
    · exact h d hd'
    · rcases List.mem_singleton.1 hd' with rfl
      exact finishDecl_ok _
  · exact h

theorem classifyAux_css (f : Nat) : ∀ (ts : List Str) (st : ParseState),
    cssOk st.css → cssOk (classifyAux f ts st).css := by
  induction f with
  | zero =>
    intro ts st h
    cases ts <;> exact h
  | succ f ih =>
    intro ts st h
    cases ts with
    | nil => exact h
    | cons t ts =>
      rw [classifyAux]
      exact ih _ _ (classifyStep_css _ _ _ h)

theorem classifyStep_keys (t : Str) (st : ParseState) (ts : List Str)
    (h : (st.attributes.map Prod.fst).Nodup) :
    ((classifyStep t st ts).1.attributes.map Prod.fst).Nodup := by
  unfold classifyStep
  split_ifs with h1 h2 h3 h4
  · exact h
  · exact h
  · exact keys_setEntry_nodup _ _ h
  · exact h
  · exact h

theorem classifyAux_keys (f : Nat) : ∀ (ts : List Str) (st : ParseState),
    (st.attributes.map Prod.fst).Nodup →
      ((classifyAux f ts st).attributes.map Prod.fst).Nodup := by
  induction f with
  | zero =>
    intro ts st h
    cases ts <;> exact h
  | succ f ih =>
    intro ts st h
    cases ts with
    | nil => exact h
    | cons t ts =>
      rw [classifyAux]
      exact ih _ _ (classifyStep_keys _ _ _ h)

/-- The parsed attribute record always has pairwise distinct keys. -/
theorem parseAttributes_keys (s : Str) :
    ((parseAttributes s).attributes.map Prod.fst).Nodup := by
  unfold parseAttributes
  have h0 : ((classifyTokens (jsTokenize s) initState).attributes.map Prod.fst).Nodup :=
    classifyAux_keys _ _ _ (by simp [initState])
  by_cases h : (classifyTokens (jsTokenize s) initState).css ≠ []
  · simpa [h] using keys_setEntry_nodup _ _ h0
  · simpa [h] using h0

/-- When CSS declarations were collected, the parsed record holds the joined
trimmed declarations under the style key. -/
theorem parseAttributes_style_mem (s : Str)
    (h : (classifyTokens (jsTokenize s) initState).css ≠ []) :
    (strv "style",
      jsTrim (joinChar ' ' (classifyTokens (jsTokenize s) initState).css))
      ∈ (parseAttributes s).attributes := by
  unfold parseAttributes
  simpa [h] using
    mem_setEntry_self (classifyTokens (jsTokenize s) initState).attributes _ _

/-- The space-join of semicolon-terminated non-empty declarations ends in a
semicolon. -/
theorem joinChar_css_last {l : List Str} (h : cssOk l) (hne : l ≠ []) :
    (joinChar ' ' l).getLast? = some ';' := by
  induction l with
  | nil => exact absurd rfl hne
  | cons d l ih =>
    cases l with
    | nil => exact (h d (List.mem_cons_self _ _)).2
    | cons e l' =>
      rw [joinChar_cons_cons]
      have hr := ih (fun x hx => h x (List.mem_cons_of_mem _ hx)) (by simp)
      cases hj : joinChar ' ' (e :: l') with
      | nil =>
        rw [hj] at hr
        simp at hr
      | cons y ys =>
        rw [hj] at hr
        rw [getLast?_append_cons, List.getLast?_cons_cons]
        exact hr

/-! ## Merge-stage lemmas -/

theorem getProp_applyClasses_ne (pa : ParsedAttributes) (ps : Props) {k : Str}
    (h : k ≠ strv "className") : getProp (applyClasses pa ps) k = getProp ps k := by
  unfold applyClasses
  by_cases hc : pa.classes ≠ []
  · rw [if_pos hc]
    exact getProp_setProp_ne ps _ h
  · rw [if_neg hc]

theorem getProp_applyId_ne (pa : ParsedAttributes) (ps : Props) {k : Str}
    (h : k ≠ strv "id") : getProp (applyId pa ps) k = getProp ps k := by
  unfold applyId
  cases pa.id with
  | none => rfl
  | some i =>
    show getProp (if i ≠ [] then setProp ps (strv "id") (PropVal.str i) else ps) k =
      getProp ps k
    by_cases hi : i ≠ []
    · rw [if_pos hi]
      exact getProp_setProp_ne ps _ h
    · rw [if_neg hi]

theorem styleStr_applyId_applyClasses (pa : ParsedAttributes) (ps : Props) :
    styleStr (applyId pa (applyClasses pa ps)) = styleStr ps := by
  unfold styleStr
  rw [getProp_applyId_ne pa _ (by decide), getProp_applyClasses_ne pa ps (by decide)]

/-- The attribute loop, restricted to the unique style entry: the final style
value is the pre-loop style merged with the entry's value using the source's
separator. -/
theorem foldl_applyOneAttr_style {l : List (Str × Str)} {v : Str} (ps : Props)
    (hnd : (l.map Prod.fst).Nodup) (hmem : (strv "style", v) ∈ l) :
    getProp (l.foldl applyOneAttr ps) (strv "style") =
      some (.str (styleStr ps ++
        (if styleStr ps ≠ [] ∧ ¬ (styleStr ps).getLast? = some ';' then strv "; "
         else if styleStr ps ≠ [] then strv " " else []) ++ v)) := by
  rcases List.append_of_mem hmem with ⟨l1, l2, rfl⟩
  rw [List.map_append, List.map_cons] at hnd
  rcases nodup_middle_not_mem hnd with ⟨h1, h2⟩
  have hl1 : ∀ kv ∈ l1, kv.1 ≠ strv "style" := fun kv hkv hceq =>
    h1 (hceq ▸ List.mem_map.2 ⟨kv, hkv, rfl⟩)
  have hl2 : ∀ kv ∈ l2, kv.1 ≠ strv "style" := fun kv hkv hceq =>
    h2 (hceq ▸ List.mem_map.2 ⟨kv, hkv, rfl⟩)
  rw [List.foldl_append, List.foldl_cons, foldl_applyOneAttr_keep l2 _ hl2,
    applyOneAttr_style, getProp_setProp_self, styleStr_foldl_keep l1 ps hl1]

/-! ## Clean values and trees: the no-op direction -/

theorem splitAnn_none_of_no_start {v : Str} (h : hasAnnStartB v = false) :
    splitAnn v = none := by
  cases v with
  | nil => rfl
  | cons c rest =>
    rw [splitAnn, if_neg]
    intro hcond
    rw [hasAnnStartB] at h
    rcases hcond with ⟨h1, h2⟩
    subst h1
    simp [h2] at h

theorem onVisit_clean {b : Bool} {p : Props} {children : List HNode} {i : Nat}
    {v : Str} (hget : children.get? i = some (.text v))
    (h : hasAnnStartB v = false) : onVisit b p children i = (p, children) := by
  have hs := splitAnn_none_of_no_start h
  unfold onVisit
  simp only [hget, hs]

theorem onVisit_not_text {b : Bool} {p : Props} {children : List HNode} {i : Nat}
    (h : ∀ v, children.get? i ≠ some (.text v)) :
    onVisit b p children i = (p, children) := by
  unfold onVisit
  cases hg : children.get? i with
  | none => rfl
  | some n =>
    cases n with
    | element t ps cs => rfl
    | text v => exact absurd hg (h v)

theorem forestNoAnnB_get {cs : List HNode} {i : Nat} {n : HNode}
    (hf : forestNoAnnB cs = true) (hg : cs.get? i = some n) : nodeNoAnnB n = true := by
  induction cs generalizing i with
  | nil => simp [List.get?] at hg
  | cons x xs ih =>
    rw [forestNoAnnB, Bool.and_eq_true] at hf
    cases i with
    | zero =>
      simp [List.get?] at hg
      rw [← hg]
      exact hf.1
    | succ j => exact ih hf.2 (by simpa [List.get?] using hg)

theorem visitLoop_clean (fuel : Nat) : ∀ (b : Bool) (p : Props) (cs : List HNode) (i : Nat),
    forestNoAnnB cs = true → visitLoop fuel b p cs i = (p, cs) := by
  induction fuel with
  | zero => intro b p cs i _; rfl
  | succ fuel ih =>
    intro b p cs i hf
    rw [visitLoop]
    cases hg : cs.get? i with
    | none => rfl
    | some n =>
      cases n with
      | text v =>
        have hn := forestNoAnnB_get hf hg
        rw [nodeNoAnnB] at hn
        have hv : hasAnnStartB v = false := by
          cases hb : hasAnnStartB v
          · rfl
          · rw [hb] at hn; simp at hn
        simp only [hg, onVisit_clean hg hv]
        exact ih b p cs (i + 1) hf
      | element t ps cs' =>
        have hn := forestNoAnnB_get hf hg
        rw [nodeNoAnnB] at hn
        simp only [hg, ih true ps cs' 0 hn, set_getq_same hg]
        exact ih b p cs (i + 1) hf

/-! ## Claim C1: target resolution order -/

/-- C1: for every visit of a text node with a matched annotation, the target
element is resolved by trying exactly the four rules in order, first match
winning: previous sibling at originalIndex-1 when the index is positive and
that sibling is an element; else the sole remaining first child when it is an
element and the child list has exactly one entry; else the parent when it is
an element; else no target. -/
theorem target_resolution_c1 (b : Bool) (children : List HNode) (index : Nat) :
    getTargetElement b children index = getTargetSpec b children index := by
  unfold getTargetElement getTargetSpec
  by_cases h3 : optIsElem (children.get? (index - 1))
  · by_cases h0 : index = 0
    · subst h0
      simp
    · have hlen : 0 < children.length := by
        cases hg : children.get? (index - 1) with
        | none => rw [hg] at h3; simp [optIsElem] at h3
        | some n => exact Nat.lt_of_le_of_lt (Nat.zero_le _) (getq_lt hg)
      simp only [List.get?_eq_getElem?] at h3
      simp [h0, h3, hlen, Nat.pos_of_ne_zero h0]
  · simp only [List.get?_eq_getElem?] at h3
    simp [h3]

/-! ## Claim C2: non-matching values are a complete no-op -/

/-- C2: for every text node whose value does not begin at offset 0 with the
open delimiter followed, before the end of the string, by the close delimiter
(annotations in the middle of the text and unterminated open delimiters
included), applying the transform leaves the entire tree unchanged. -/
theorem transform_noop_c2 (root : List HNode) (h : forestNoAnnB root = true) :
    transform root = root := by
  unfold transform
  rw [visitLoop_clean _ _ _ _ _ h]

/-- Witness for C2: a tree whose text values carry a middle-of-text
annotation, an unterminated open delimiter, and no delimiter at all, is left
untouched by the transform. -/
theorem transform_noop_c2_witness :
    forestNoAnnB
      [.element "p" [] [.text (strv "Some text \x7bcolor: red;\x7d in the middle")],
       .text (strv "\x7bcolor: red; font-weight: bold"),
       .element "div" [(strv "id", .str (strv "keep"))] [.text (strv "no delimiters")]] =
      true ∧
    transform
      [.element "p" [] [.text (strv "Some text \x7bcolor: red;\x7d in the middle")],
       .text (strv "\x7bcolor: red; font-weight: bold"),
       .element "div" [(strv "id", .str (strv "keep"))] [.text (strv "no delimiters")]] =
      [.element "p" [] [.text (strv "Some text \x7bcolor: red;\x7d in the middle")],
       .text (strv "\x7bcolor: red; font-weight: bold"),
       .element "div" [(strv "id", .str (strv "keep"))] [.text (strv "no delimiters")]] :=
  ⟨by decide, transform_noop_c2 _ (by decide)⟩

/-! ## Claim C3: style merge -/

/-- C3: for every target attribute bag and every parsed annotation whose
attribute record contains the style key with value v (parsed records have
pairwise distinct keys), the merge stores existing ++ separator ++ v, the
separator being "; " when the existing style is non-empty and does not end in
a semicolon, one space when it is non-empty and ends in a semicolon, and
nothing when it is empty or absent; in particular the pre-existing style is
never discarded. -/
theorem style_merge_c3 (ps : Props) (pa : ParsedAttributes) (v : Str)
    (_hok : styleOkB ps = true)
    (hnd : (pa.attributes.map Prod.fst).Nodup)
    (hmem : (strv "style", v) ∈ pa.attributes) :
    getProp (applyAttributes pa ps) (strv "style") =
      some (.str (styleStr ps ++
        (if styleStr ps ≠ [] ∧ ¬ (styleStr ps).getLast? = some ';' then strv "; "
         else if styleStr ps ≠ [] ∧ (styleStr ps).getLast? = some ';' then strv " "
         else []) ++ v)) := by
  unfold applyAttributes
  rw [foldl_applyOneAttr_style _ hnd hmem, styleStr_applyId_applyClasses]
  by_cases he : styleStr ps = []
  · simp [he]
  · by_cases hl : (styleStr ps).getLast? = some ';'
    · simp [he, hl]
    · simp [he, hl]

/-- Witness for C3: merging the parsed style of "font-weight: bold" into an
existing style "color:red" (non-empty, not semicolon-terminated) yields
"color:red; font-weight: bold;". -/
theorem style_merge_c3_witness :
    styleOkB [(strv "style", PropVal.str (strv "color:red"))] = true ∧
    ((parseAttributes (strv "font-weight: bold")).attributes.map Prod.fst).Nodup ∧
    (strv "style", strv "font-weight: bold;") ∈
      (parseAttributes (strv "font-weight: bold")).attributes ∧
    getProp (applyAttributes (parseAttributes (strv "font-weight: bold"))
        [(strv "style", PropVal.str (strv "color:red"))]) (strv "style") =
      some (.str (strv "color:red; font-weight: bold;")) :=
  ⟨rfl, by decide, by decide,
    (style_merge_c3 [(strv "style", PropVal.str (strv "color:red"))]
      (parseAttributes (strv "font-weight: bold")) (strv "font-weight: bold;")
      rfl (by decide) (by decide)).trans (by rfl)⟩

/-! ## Claim C4: class merge -/

/-- Counterexample to C4 as stated: with an existing class string containing a
tab, "a\tb", and parsed class "c", the code splits the existing value on the
space character only and stores "a\tb c", while the claim's
split-on-whitespace normalization would give "a b c". -/
theorem class_merge_c4_counterexample :
    getProp (applyAttributes ⟨[strv "c"], none, []⟩
        [(strv "className", PropVal.str (strv "a\tb"))]) (strv "className") =
      some (.str (strv "a\tb c")) ∧
    specMergeClass [(strv "className", PropVal.str (strv "a\tb"))]
        ⟨[strv "c"], none, []⟩ = strv "a b c" ∧
    strv "a\tb c" ≠ strv "a b c" :=
  ⟨rfl, rfl, by decide⟩

/-- C4 amended: for every target bag and non-empty parsed class list (with no
className entry among the parsed key=value attributes), the merge stores the
duplicate-free union of the normalized existing classes — absent becomes the
empty list, an array is taken as is, a string is split on single SPACE
characters (not all whitespace) with empty pieces dropped — followed by the
parsed classes, first occurrence's position kept, joined with single spaces;
when the parsed class list is empty the class attribute is untouched. -/
theorem class_merge_c4_amended (ps : Props) (pa : ParsedAttributes)
    (hno : strv "className" ∉ pa.attributes.map Prod.fst) :
    (pa.classes ≠ [] →
      getProp (applyAttributes pa ps) (strv "className") =
        some (.str (joinChar ' '
          (jsSetDedup (normalizeClassVal (getProp ps (strv "className")) ++
            pa.classes))))) ∧
    (pa.classes = [] →
      getProp (applyAttributes pa ps) (strv "className") =
        getProp ps (strv "className")) := by
  have hfold : ∀ ps' : Props,
      getProp (pa.attributes.foldl applyOneAttr ps') (strv "className") =
        getProp ps' (strv "className") := by
    intro ps'
    apply foldl_applyOneAttr_keep
    intro kv hkv hc
    exact hno (hc ▸ List.mem_map.2 ⟨kv, hkv, rfl⟩)
  constructor
  · intro hc
    unfold applyAttributes
    rw [hfold, getProp_applyId_ne pa _ (by decide)]
    unfold applyClasses
    rw [if_pos hc, getProp_setProp_self]
  · intro hc
    unfold applyAttributes
    rw [hfold, getProp_applyId_ne pa _ (by decide)]
    unfold applyClasses
    rw [if_neg (by simp [hc])]

/-- Witness for C4 amended, on the claim's own example: merging parsed classes
new and x into an element whose existing class is "existing" yields
"existing new x". -/
theorem class_merge_c4_witness :
    strv "className" ∉ (([] : List (Str × Str)).map Prod.fst) ∧
    ([strv "new", strv "x"] : List Str) ≠ [] ∧
    getProp (applyAttributes ⟨[strv "new", strv "x"], none, []⟩
        [(strv "className", PropVal.str (strv "existing"))]) (strv "className") =
      some (.str (strv "existing new x")) :=
  ⟨by decide, by decide,
    ((class_merge_c4_amended [(strv "className", PropVal.str (strv "existing"))]
        ⟨[strv "new", strv "x"], none, []⟩ (by decide)).1 (by decide)).trans (by rfl)⟩

/-! ## Claim C5: the CSS-declaration step of the classifier -/

/-- C5: when the classifier reaches a token containing a colon (not starting
with a dot or a hash — and a colon-bearing token is never an
equals-without-colon token), it starts a declaration there and greedily
absorbs following tokens, space-joined, while they are not stop tokens; the
finished declaration is trimmed, a semicolon is appended exactly when it does
not already end with one, it is appended to the ordered declarations list,
and classification resumes at the first unabsorbed token. -/
theorem decl_step_c5 (t : Str) (ts : List Str) (st : ParseState)
    (h1 : ¬ t.head? = some '.') (h2 : ¬ t.head? = some '#')
    (h3 : t.elem ':' = true) :
    classifyTokens (t :: ts) st =
      classifyTokens (ts.dropWhile (fun x => !stopToken x))
        { st with css := st.css ++
            [finishDecl (joinChar ' ' (t :: ts.takeWhile (fun x => !stopToken x)))] } := by
  rw [classifyTokens_cons]
  have hstep : classifyStep t st ts =
      ({ st with css := st.css ++
          [finishDecl (joinChar ' ' (t :: ts.takeWhile (fun x => !stopToken x)))] },
       ts.dropWhile (fun x => !stopToken x)) := by
    unfold classifyStep
    rw [if_neg h1, if_neg h2, if_neg (by simp; intro _; simpa using h3), if_pos h3]
    simp only [declAbsorb_eq]
  rw [hstep]

/-- Witness for C5: the token "color:" absorbs "red" and stops at ".x",
producing the declaration "color: red;". -/
theorem decl_step_c5_witness :
    ¬ (strv "color:").head? = some '.' ∧
    ¬ (strv "color:").head? = some '#' ∧
    (strv "color:").elem ':' = true ∧
    classifyTokens [strv "color:", strv "red", strv ".x"] initState =
      classifyTokens ([strv "red", strv ".x"].dropWhile (fun x => !stopToken x))
        { initState with css := initState.css ++
            [finishDecl (joinChar ' '
              (strv "color:" :: [strv "red", strv ".x"].takeWhile (fun x => !stopToken x)))] } :=
  ⟨by decide, by decide, by decide,
    decl_step_c5 (strv "color:") [strv "red", strv ".x"] initState
      (by decide) (by decide) (by decide)⟩

/-! ## Claim C6: the attribute-token step of the classifier -/

/-- Counterexample to C6 as stated: for the token a="b the code stores the
value b — the lone leading double quote is stripped although no matching
trailing quote exists — while the claim's matching-pair rule would keep the
value "b unchanged. -/
theorem attr_quote_c6_counterexample :
    (classifyTokens [strv "a=\"b"] initState).attributes = [(strv "a", strv "b")] ∧
    stripQuotesSpec (strv "\"b") = strv "\"b" ∧
    strv "b" ≠ strv "\"b" :=
  ⟨by decide, by decide, by decide⟩

theorem joinChar_cons_head (c x : Char) (q : Str) (qs : List Str) :
    joinChar c ((x :: q) :: qs) = x :: joinChar c (q :: qs) := by
  cases qs <;> rfl

theorem splitChar_ne_nil (c : Char) (s : Str) : splitChar c s ≠ [] := by
  cases s with
  | nil => simp [splitChar]
  | cons x xs =>
    rw [splitChar]
    by_cases h : x = c
    · simp [h]
    · rw [if_neg h]
      cases hs : splitChar c xs <;> simp

theorem joinChar_splitChar (c : Char) (s : Str) : joinChar c (splitChar c s) = s := by
  induction s with
  | nil => rfl
  | cons x xs ih =>
    by_cases h : x = c
    · subst h
      rw [splitChar, if_pos rfl]
      cases hs : splitChar x xs with
      | nil => exact absurd hs (splitChar_ne_nil x xs)
      | cons q qs =>
        rw [joinChar_cons_cons, ← hs, ih]
        rfl
    · rw [splitChar, if_neg h]
      cases hs : splitChar c xs with
      | nil => exact absurd hs (splitChar_ne_nil c xs)
      | cons q qs =>
        rw [joinChar_cons_head, ← hs, ih]

theorem splitChar_headD (c : Char) (s : Str) :
    (splitChar c s).headD [] = s.takeWhile (fun x => x ≠ c) := by
  induction s with
  | nil => rfl
  | cons x xs ih =>
    by_cases h : x = c
    · subst h
      rw [splitChar, if_pos rfl, List.takeWhile_cons_of_neg (by simp)]
      rfl
    · rw [splitChar, if_neg h, List.takeWhile_cons_of_pos (by simpa using h)]
      cases hs : splitChar c xs with
      | nil => exact absurd hs (splitChar_ne_nil c xs)
      | cons q qs =>
        rw [hs] at ih
        simp only [List.headD] at ih ⊢
        rw [ih]

theorem splitChar_tail_join (c : Char) (s : Str) :
    joinChar c (splitChar c s).tail = (s.dropWhile (fun x => x ≠ c)).drop 1 := by
  induction s with
  | nil => rfl
  | cons x xs ih =>
    by_cases h : x = c
    · subst h
      rw [splitChar, if_pos rfl, List.dropWhile_cons_of_neg (by simp)]
      show joinChar x (splitChar x xs) = xs
      exact joinChar_splitChar x xs
    · rw [splitChar, if_neg h, List.dropWhile_cons_of_pos (by simpa using h)]
      cases hs : splitChar c xs with
      | nil => exact absurd hs (splitChar_ne_nil c xs)
      | cons q qs =>
        rw [hs] at ih
        simpa using ih

/-- C6 amended: for every token containing an equals sign and no colon (and
not starting with a dot or a hash), the classifier stores an attribute whose
key is the part before the first equals sign and whose value is the remainder
(further equals signs re-joined) with one leading quote character and one
trailing quote character each stripped independently when present — no
matching pair required; later tokens with the same key overwrite earlier
ones (record assignment replaces the value in place). -/
theorem attr_step_c6_amended (t : Str) (ts : List Str) (st : ParseState)
    (h1 : ¬ t.head? = some '.') (h2 : ¬ t.head? = some '#')
    (h3 : t.elem '=' = true) (h4 : t.elem ':' = false) :
    classifyTokens (t :: ts) st =
      classifyTokens ts
        { st with attributes := setEntry st.attributes (t.takeWhile (fun x => x ≠ '=')) (stripQuotes ((t.dropWhile (fun x => x ≠ '=')).drop 1)) } ∧
    (∀ (r : List (Str × Str)) (k v : Str), getEntry (setEntry r k v) k = some v) := by
  refine ⟨?_, fun r k v => getEntry_setEntry_self r k v⟩
  rw [classifyTokens_cons]
  have hstep : classifyStep t st ts =
      ({ st with attributes := setEntry st.attributes (t.takeWhile (fun x => x ≠ '=')) (stripQuotes ((t.dropWhile (fun x => x ≠ '=')).drop 1)) }, ts) := by
    unfold classifyStep
    rw [if_neg h1, if_neg h2,
      if_pos (by simp; exact ⟨by simpa using h3, by simpa using h4⟩)]
    simp only [splitChar_headD, splitChar_tail_join]
  rw [hstep]

/-- Witness for C6 amended: the token data-x='v' stores key data-x with the
quoted value stripped to v. -/
theorem attr_step_c6_witness :
    ¬ (strv "data-x='v'").head? = some '.' ∧
    ¬ (strv "data-x='v'").head? = some '#' ∧
    (strv "data-x='v'").elem '=' = true ∧
    (strv "data-x='v'").elem ':' = false ∧
    (classifyTokens [strv "data-x='v'"] initState =
      classifyTokens []
        { initState with attributes := setEntry initState.attributes ((strv "data-x='v'").takeWhile (fun x => x ≠ '=')) (stripQuotes (((strv "data-x='v'").dropWhile (fun x => x ≠ '=')).drop 1)) } ∧
     ∀ (r : List (Str × Str)) (k v : Str), getEntry (setEntry r k v) k = some v) :=
  ⟨by decide, by decide, by decide, by decide,
    attr_step_c6_amended (strv "data-x='v'") [] initState
      (by decide) (by decide) (by decide) (by decide)⟩

/-! ## The annotated-visit unfolding and node-shape machinery -/

/-- A visit of a text child whose value matched the annotation regex: strip
and trim, splice when empty, resolve the target on the mutated list, then
apply the empty-style sentinel or the parsed attributes. -/
theorem onVisit_ann (b : Bool) (p : Props) (children : List HNode) (i : Nat)
    (v body after : Str) (hget : children.get? i = some (.text v))
    (hsplit : splitAnn v = some (body, after)) :
    onVisit b p children i =
      if jsTrim body = [] then
        applyAtLoc p (pruneOrSet children i (jsTrim after))
          (getTargetElement b (pruneOrSet children i (jsTrim after)) i)
          (fun ps => setProp ps (strv "style") (.str []))
      else
        applyAtLoc p (pruneOrSet children i (jsTrim after))
          (getTargetElement b (pruneOrSet children i (jsTrim after)) i)
          (applyAttributes (parseAttributes (jsTrim body))) := by
  unfold onVisit
  simp only [hget, hsplit]

theorem sameShape_refl (n : HNode) : sameShape n n := by
  cases n <;> simp [sameShape]

theorem sameShapeOpt_refl (o : Option HNode) : sameShapeOpt o o := by
  cases o with
  | none => trivial
  | some n => exact sameShape_refl n

theorem sameShape_update (f : Props → Props) (n : HNode) :
    sameShape n (updateElemProps f n) := by
  cases n <;> simp [updateElemProps, sameShape]

theorem sameShapeOpt_text {v : Str} {o : Option HNode}
    (h : sameShapeOpt (some (.text v)) o) : o = some (.text v) := by
  cases o with
  | none => exact absurd h (by simp [sameShapeOpt])
  | some n =>
    cases n with
    | text w =>
      have hw : v = w := h
      rw [hw]
    | element t ps cs => exact absurd h (by simp [sameShapeOpt, sameShape])

/-- An attribute write at a resolved target never adds, removes or reorders
nodes: lengths match and every position keeps its shape. -/
theorem applyAtLoc_shape (p : Props) (cs : List HNode) (loc : Option TargetLoc)
    (f : Props → Props) :
    (applyAtLoc p cs loc f).2.length = cs.length ∧
    ∀ j, sameShapeOpt (cs.get? j) ((applyAtLoc p cs loc f).2.get? j) := by
  cases loc with
  | none => exact ⟨rfl, fun j => sameShapeOpt_refl _⟩
  | some t =>
    cases t with
    | parentT => exact ⟨rfl, fun j => sameShapeOpt_refl _⟩
    | childAt k =>
      cases hg : cs.get? k with
      | none =>
        have happ : applyAtLoc p cs (some (.childAt k)) f = (p, cs) := by
          unfold applyAtLoc modifyAt
          simp only [hg]
        rw [happ]
        exact ⟨rfl, fun j => sameShapeOpt_refl _⟩
      | some n =>
        have happ : applyAtLoc p cs (some (.childAt k)) f =
            (p, cs.set k (updateElemProps f n)) := by
          unfold applyAtLoc modifyAt
          simp only [hg]
        rw [happ]
        refine ⟨List.length_set .., fun j => ?_⟩
        by_cases hj : k = j
        · subst hj
          rw [hg, getq_set_self _ hg]
          exact sameShape_update f n
        · rw [getq_set_ne _ hj]
          exact sameShapeOpt_refl _

/-! ## Claim C7: the empty-annotation sentinel -/

/-- C7: for every text node whose annotation body is empty after trimming, the
visit still strips the annotation from the text (splicing the node when its
value became empty) and the resolved target, when one exists, gets its style
attribute set to the empty string — an unconditional overwrite, no merge;
this is distinct from the no-annotation case, where nothing at all happens. -/
theorem empty_body_c7 (b : Bool) (p : Props) (children : List HNode) (i : Nat)
    (v body after : Str) (hget : children.get? i = some (.text v))
    (hsplit : splitAnn v = some (body, after)) (hempty : jsTrim body = []) :
    onVisit b p children i =
      applyAtLoc p (pruneOrSet children i (jsTrim after))
        (getTargetElement b (pruneOrSet children i (jsTrim after)) i)
        (fun ps => setProp ps (strv "style") (.str [])) ∧
    ∀ ps : Props,
      getProp (setProp ps (strv "style") (.str [])) (strv "style") =
        some (.str []) := by
  refine ⟨?_, fun ps => getProp_setProp_self ps _ _⟩
  rw [onVisit_ann b p children i v body after hget hsplit, if_pos hempty]

/-- Witness for C7: the value beginning with the empty annotation on the lone
text child of an element parent with a pre-existing style; the parent's style
is overwritten by the empty string. -/
theorem empty_body_c7_witness :
    ([HNode.text (strv "\x7b\x7dSome text here")].get? 0 =
      some (.text (strv "\x7b\x7dSome text here"))) ∧
    splitAnn (strv "\x7b\x7dSome text here") = some (strv "", strv "Some text here") ∧
    jsTrim (strv "") = [] ∧
    (onVisit true [(strv "style", PropVal.str (strv "old"))]
        [HNode.text (strv "\x7b\x7dSome text here")] 0 =
      applyAtLoc [(strv "style", PropVal.str (strv "old"))]
        (pruneOrSet [HNode.text (strv "\x7b\x7dSome text here")] 0
          (jsTrim (strv "Some text here")))
        (getTargetElement true
          (pruneOrSet [HNode.text (strv "\x7b\x7dSome text here")] 0
            (jsTrim (strv "Some text here"))) 0)
        (fun ps => setProp ps (strv "style") (.str [])) ∧
     ∀ ps : Props,
       getProp (setProp ps (strv "style") (.str [])) (strv "style") =
         some (.str [])) :=
  ⟨rfl, by decide, rfl,
    empty_body_c7 true [(strv "style", PropVal.str (strv "old"))]
      [HNode.text (strv "\x7b\x7dSome text here")] 0
      (strv "\x7b\x7dSome text here") (strv "") (strv "Some text here")
      rfl (by decide) rfl⟩

/-! ## Claim C8: strip and prune -/

/-- C8: for every text node with a matched annotation, the node's new value is
the original value with the annotation removed and trimmed at both ends, and
the node is spliced out exactly when that value is empty; every other position
of the child list keeps its node (its attribute bag possibly updated, its
variant, text value, tag and children untouched). -/
theorem strip_prune_c8 (b : Bool) (p : Props) (children : List HNode) (i : Nat)
    (v body after : Str) (hget : children.get? i = some (.text v))
    (hsplit : splitAnn v = some (body, after)) :
    (jsTrim after ≠ [] →
      (onVisit b p children i).2.length = children.length ∧
      (onVisit b p children i).2.get? i = some (.text (jsTrim after)) ∧
      ∀ j, j ≠ i →
        sameShapeOpt (children.get? j) ((onVisit b p children i).2.get? j)) ∧
    (jsTrim after = [] →
      (onVisit b p children i).2.length + 1 = children.length ∧
      ∀ j, sameShapeOpt ((children.eraseIdx i).get? j)
        ((onVisit b p children i).2.get? j)) := by
  have hv := onVisit_ann b p children i v body after hget hsplit
  have hex : ∃ f, onVisit b p children i =
      applyAtLoc p (pruneOrSet children i (jsTrim after))
        (getTargetElement b (pruneOrSet children i (jsTrim after)) i) f := by
    rw [hv]
    by_cases hb : jsTrim body = []
    · rw [if_pos hb]; exact ⟨_, rfl⟩
    · rw [if_neg hb]; exact ⟨_, rfl⟩
  rcases hex with ⟨f, hf⟩
  have hshape := applyAtLoc_shape p (pruneOrSet children i (jsTrim after))
    (getTargetElement b (pruneOrSet children i (jsTrim after)) i) f
  constructor
  · intro hne
    have hc1 : pruneOrSet children i (jsTrim after) =
        children.set i (.text (jsTrim after)) := by
      rw [pruneOrSet, if_neg hne]
    refine ⟨?_, ?_, ?_⟩
    · rw [hf, hshape.1, hc1, List.length_set]
    · have h2 : (pruneOrSet children i (jsTrim after)).get? i =
          some (.text (jsTrim after)) := by
        rw [hc1]
        exact getq_set_self _ hget
      have hsi := hshape.2 i
      rw [h2] at hsi
      rw [hf]
      exact sameShapeOpt_text hsi
    · intro j hj
      have h2 : (pruneOrSet children i (jsTrim after)).get? j = children.get? j := by
        rw [hc1]
        exact getq_set_ne _ (fun hc => hj hc.symm)
      have hsj := hshape.2 j
      rw [h2] at hsj
      rw [hf]
      exact hsj
  · intro hee
    have hc1 : pruneOrSet children i (jsTrim after) = children.eraseIdx i := by
      rw [pruneOrSet, if_pos hee]
    refine ⟨?_, ?_⟩
    · rw [hf, hshape.1, hc1]
      exact length_eraseIdx_add_one (getq_lt hget)
    · intro j
      have h2 : (pruneOrSet children i (jsTrim after)).get? j =
          (children.eraseIdx i).get? j := by
        rw [hc1]
      have hsj := hshape.2 j
      rw [h2] at hsj
      rw [hf]
      exact hsj

/-- Witness for C8: the annotation on the text node following an em element;
the annotation is stripped, the value trimmed to "and", nothing is spliced,
and the sibling keeps its shape. -/
theorem strip_prune_c8_witness :
    ([HNode.element "em" [] [], HNode.text (strv "\x7bfont-style: italic;\x7d and ")].get? 1 =
      some (.text (strv "\x7bfont-style: italic;\x7d and "))) ∧
    splitAnn (strv "\x7bfont-style: italic;\x7d and ") =
      some (strv "font-style: italic;", strv " and ") ∧
    ((jsTrim (strv " and ") ≠ [] →
      (onVisit true [] [HNode.element "em" [] [], HNode.text (strv "\x7bfont-style: italic;\x7d and ")] 1).2.length =
        [HNode.element "em" [] [], HNode.text (strv "\x7bfont-style: italic;\x7d and ")].length ∧
      (onVisit true [] [HNode.element "em" [] [], HNode.text (strv "\x7bfont-style: italic;\x7d and ")] 1).2.get? 1 =
        some (.text (jsTrim (strv " and "))) ∧
      ∀ j, j ≠ 1 →
        sameShapeOpt ([HNode.element "em" [] [], HNode.text (strv "\x7bfont-style: italic;\x7d and ")].get? j)
          ((onVisit true [] [HNode.element "em" [] [], HNode.text (strv "\x7bfont-style: italic;\x7d and ")] 1).2.get? j)) ∧
    (jsTrim (strv " and ") = [] →
      (onVisit true [] [HNode.element "em" [] [], HNode.text (strv "\x7bfont-style: italic;\x7d and ")] 1).2.length + 1 =
        [HNode.element "em" [] [], HNode.text (strv "\x7bfont-style: italic;\x7d and ")].length ∧
      ∀ j, sameShapeOpt (([HNode.element "em" [] [], HNode.text (strv "\x7bfont-style: italic;\x7d and ")].eraseIdx 1).get? j)
        ((onVisit true [] [HNode.element "em" [] [], HNode.text (strv "\x7bfont-style: italic;\x7d and ")] 1).2.get? j))) :=
  ⟨rfl, by decide,
    strip_prune_c8 true [] [HNode.element "em" [] [], HNode.text (strv "\x7bfont-style: italic;\x7d and ")] 1
      (strv "\x7bfont-style: italic;\x7d and ") (strv "font-style: italic;") (strv " and ")
      rfl (by decide)⟩

/-! ## Claim C10: successful parse with no target -/

/-- C10: when an annotation parses but the resolver yields no target — the
annotated text node sits under a non-element root with no usable sibling —
the text mutation still takes place (annotation stripped, node spliced when
its value became empty) while the parsed classes, id, attributes and style
are applied nowhere: the visit returns exactly the stripped child list and the
untouched parent bag. -/
theorem no_target_c10 (b : Bool) (p : Props) (children : List HNode) (i : Nat)
    (v body after : Str) (hget : children.get? i = some (.text v))
    (hsplit : splitAnn v = some (body, after))
    (hno : getTargetElement b (pruneOrSet children i (jsTrim after)) i = none) :
    onVisit b p children i = (p, pruneOrSet children i (jsTrim after)) := by
  rw [onVisit_ann b p children i v body after hget hsplit]
  by_cases hb : jsTrim body = []
  · rw [if_pos hb, hno]
    rfl
  · rw [if_neg hb, hno]
    rfl

/-- Witness for C10: an annotated text node that is the sole child of the
non-element root; the annotation is stripped but the parsed style is applied
nowhere. -/
theorem no_target_c10_witness :
    ([HNode.text (strv "\x7bcolor: red;\x7d x")].get? 0 =
      some (.text (strv "\x7bcolor: red;\x7d x"))) ∧
    splitAnn (strv "\x7bcolor: red;\x7d x") = some (strv "color: red;", strv " x") ∧
    getTargetElement false
      (pruneOrSet [HNode.text (strv "\x7bcolor: red;\x7d x")] 0 (jsTrim (strv " x"))) 0 =
      none ∧
    onVisit false [] [HNode.text (strv "\x7bcolor: red;\x7d x")] 0 =
      ([], pruneOrSet [HNode.text (strv "\x7bcolor: red;\x7d x")] 0 (jsTrim (strv " x"))) :=
  ⟨rfl, by decide, by decide,
    no_target_c10 false [] [HNode.text (strv "\x7bcolor: red;\x7d x")] 0
      (strv "\x7bcolor: red;\x7d x") (strv "color: red;") (strv " x")
      rfl (by decide) (by decide)⟩

/-! ## Claim C9: the shape of written style values -/

theorem not_styleShape_red : ¬ StyleShape (strv "red") := by
  rintro ⟨ds, hok, heq, -⟩
  cases ds with
  | nil => exact absurd heq (by decide)
  | cons d ds' =>
    have hl := joinChar_css_last hok (by simp)
    rw [← heq] at hl
    exact absurd hl (by decide)

/-- Counterexample to C9 as stated: the annotation consisting of the single
explicit attribute token style=red makes the transform write the raw style
value "red" to its target — "red" is not a sequence of semicolon-terminated
declarations, so not every written style value has the claimed shape. -/
theorem style_shape_c9_counterexample :
    (onVisit true [] [HNode.text (strv "\x7bstyle=red\x7dx")] 0).1 =
      [(strv "style", PropVal.str (strv "red"))] ∧
    ¬ StyleShape (strv "red") :=
  ⟨rfl, not_styleShape_red⟩

/-- The merge of a non-empty semicolon-terminated value into an existing style
with no leading whitespace produces a value of the claimed shape, whichever
separator the source picks. -/
theorem styleShape_merge {ex v : Str}
    (hexhead : ∀ c, ex.head? = some c → isWs c = false)
    (hvne : v ≠ []) (hvlast : v.getLast? = some ';')
    (hvhead : ∀ c, v.head? = some c → isWs c = false) :
    StyleShape (ex ++
      (if ex ≠ [] ∧ ¬ ex.getLast? = some ';' then strv "; "
       else if ex ≠ [] then strv " " else []) ++ v) := by
  by_cases he : ex = []
  · subst he
    have hval : (([] : Str) ++
        (if ([] : Str) ≠ [] ∧ ¬ ([] : Str).getLast? = some ';' then strv "; "
         else if ([] : Str) ≠ [] then strv " " else []) ++ v) = v := by
      simp
    rw [hval]
    refine ⟨[v], fun d hd => ?_, by simp [joinChar], hvhead⟩
    rcases List.mem_singleton.1 hd with rfl
    exact ⟨hvne, hvlast⟩
  · have hene : ex ++ (if ex ≠ [] ∧ ¬ ex.getLast? = some ';' then strv "; "
        else if ex ≠ [] then strv " " else []) ++ v ≠ [] := by
      simp [he]
    have hhead : ∀ c, (ex ++ (if ex ≠ [] ∧ ¬ ex.getLast? = some ';' then strv "; "
        else if ex ≠ [] then strv " " else []) ++ v).head? = some c → isWs c = false := by
      intro c hc
      rw [head?_append_left _ (by simp [he])] at hc
      rw [head?_append_left _ he] at hc
      exact hexhead c hc
    by_cases hl : ex.getLast? = some ';'
    · have hsep : (if ex ≠ [] ∧ ¬ ex.getLast? = some ';' then strv "; "
          else if ex ≠ [] then strv " " else []) = strv " " := by
        simp [he, hl]
      rw [hsep] at hhead ⊢
      refine ⟨[ex, v], fun d hd => ?_, ?_, hhead⟩
      · rcases List.mem_cons.1 hd with rfl | hd'
        · exact ⟨he, hl⟩
        · rcases List.mem_singleton.1 hd' with rfl
          exact ⟨hvne, hvlast⟩
      · show ex ++ strv " " ++ v = joinChar ' ' [ex, v]
        rw [joinChar_cons_cons]
        simp [joinChar, strv, List.append_assoc]
    · have hsep : (if ex ≠ [] ∧ ¬ ex.getLast? = some ';' then strv "; "
          else if ex ≠ [] then strv " " else []) = strv "; " := by
        simp [he, hl]
      rw [hsep] at hhead ⊢
      refine ⟨[ex ++ [';'], v], fun d hd => ?_, ?_, hhead⟩
      · rcases List.mem_cons.1 hd with rfl | hd'
        · exact ⟨by simp, List.getLast?_concat _⟩
        · rcases List.mem_singleton.1 hd' with rfl
          exact ⟨hvne, hvlast⟩
      · show ex ++ strv "; " ++ v = joinChar ' ' [ex ++ [';'], v]
        rw [joinChar_cons_cons]
        simp [joinChar, strv, List.append_assoc]

/-- C9 amended: every style value the transform synthesizes from CSS
declarations (the css list of the classifier non-empty — the case of an
explicit style= attribute token with no declarations is excluded, as is an
array-valued or leading-whitespace pre-existing style) is of the claimed
shape: a sequence of non-empty semicolon-terminated declarations joined by
single spaces, with no leading or trailing whitespace, after merging into the
existing style.  As stated — for arbitrary annotations — the claim is false
(see the counterexample). -/
theorem style_shape_c9_amended (ps : Props) (s : Str)
    (_hok : styleOkB ps = true)
    (hhead : ∀ c, (styleStr ps).head? = some c → isWs c = false)
    (hcss : (classifyTokens (jsTokenize s) initState).css ≠ []) :
    StyleShape (styleStr (applyAttributes (parseAttributes s) ps)) := by
  have hcssOk : cssOk (classifyTokens (jsTokenize s) initState).css :=
    classifyAux_css _ _ _ (fun d hd => absurd hd (List.not_mem_nil d))
  have hjlast := joinChar_css_last hcssOk hcss
  have hvlast : (jsTrim (joinChar ' ' (classifyTokens (jsTokenize s) initState).css)).getLast? =
      some ';' := jsTrim_last_semi hjlast
  have hvne : jsTrim (joinChar ' ' (classifyTokens (jsTokenize s) initState).css) ≠ [] := by
    intro h
    rw [h] at hvlast
    simp at hvlast
  have hvhead : ∀ c,
      (jsTrim (joinChar ' ' (classifyTokens (jsTokenize s) initState).css)).head? = some c →
        isWs c = false := fun c hc => jsTrim_head_not_ws hc
  have heq : getProp (applyAttributes (parseAttributes s) ps) (strv "style") =
      some (.str (styleStr ps ++
        (if styleStr ps ≠ [] ∧ ¬ (styleStr ps).getLast? = some ';' then strv "; "
         else if styleStr ps ≠ [] then strv " " else []) ++
        jsTrim (joinChar ' ' (classifyTokens (jsTokenize s) initState).css))) := by
    unfold applyAttributes
    rw [foldl_applyOneAttr_style _ (parseAttributes_keys s)
      (parseAttributes_style_mem s hcss), styleStr_applyId_applyClasses]
  rw [styleStr_eq_of_getProp heq]
  exact styleShape_merge hhead hvne hvlast hvhead

/-- Witness for C9 amended: the annotation body "color: red" merged into an
element with no style yields a value of the claimed shape. -/
theorem style_shape_c9_witness :
    styleOkB [] = true ∧
    (∀ c, (styleStr []).head? = some c → isWs c = false) ∧
    (classifyTokens (jsTokenize (strv "color: red")) initState).css ≠ [] ∧
    StyleShape (styleStr (applyAttributes (parseAttributes (strv "color: red")) [])) :=
  ⟨rfl, fun c hc => by simp [styleStr, getProp] at hc, by decide,
    style_shape_c9_amended [] (strv "color: red") rfl
      (fun c hc => by simp [styleStr, getProp] at hc) (by decide)⟩

end RehypeStyling
